import Mathlib

/-!
Shallow embedding of the cache simulator in `src/cache.py` (class `Cache` and
the record decoder in `analyse`), together with proofs checking the
natural-language specification against it.

Modelling conventions:
* Python lists become Lean `List`s; `xs[i]` becomes `List.getD xs i d` with the
  appropriate default, and `xs[i] = v` becomes `List.set` (all live accesses in
  the source are in range, so the defaults are never exercised on reachable
  states).
* `collections.deque` is a `List Nat` (popleft = head, append = `++ [t]`).
* Python exceptions that escape a method (`IndexError` from `popleft` on an
  empty deque, `ValueError` from `list.index` with no match inside the
  `except` block of `tag_miss`) are modelled as `Option.none`.
* `int(log2(x))` is `Nat.log2 x` (exact for every argument size this program
  can meet); `log2` of 0 raises `ValueError`, modelled as `none` in `init`.
* The binary-string mask literals of the source are written as `0b` literals
  with exactly the digits of the source strings.
-/

/-- State of the Python `Cache` object: one entry per instance attribute
assigned in `Cache.__init__`. A cache line slot is `Option Nat`
(`none` = Python `None`, an empty slot). -/
structure Cache where
  sets : List (List (Option Nat))
  lru_queue : List (List Nat)
  dirs : List (List (List Bool))
  tag_mask : Nat
  set_mask : Nat
  offset_mask : Nat
  set_shift : Nat
  tag_shift : Nat
  hits : Nat
  misses : Nat
  dr_accesses : Nat
  dw_accesses : Nat
deriving Repr, DecidableEq

namespace Cache

/-- `int(math.log2(x))` for positive `x`: the floor of the base-2 logarithm.
Structurally recursive on a fuel argument so the kernel can evaluate it;
proved equal to `Nat.log2` below (`ilog2_eq_log2`). -/
def ilog2 (n : Nat) : Nat :=
  go n n
where
  go : Nat → Nat → Nat
  | 0, _ => 0
  | fuel + 1, m => if 2 ≤ m then go fuel (m / 2) + 1 else 0

/-- `Cache.calc_masks`: the source builds binary strings
`(27-offset)*'0' + offset*'1'` etc. and converts with `int(_, 2)`; the values
of those strings are the closed forms below (Python's negative string
repetition count yields the empty string, matching truncated `Nat`
subtraction in `27 - offset - set_num`). Returns (tag_mask, set_mask,
offset_mask). -/
def calc_masks (l n : Nat) : Nat × Nat × Nat :=
  let offset := ilog2 l
  let set_num := ilog2 n
  let tag := 27 - offset - set_num
  let offset_mask := 2 ^ offset - 1
  let set_mask := (2 ^ set_num - 1) <<< offset
  let tag_mask := (2 ^ tag - 1) <<< (set_num + offset)
  (tag_mask, set_mask, offset_mask)

/-- `Cache.__init__(l, k, n)`. `math.log2` raises `ValueError` on 0, hence
`none` when `l = 0` or `n = 0`; otherwise construction always succeeds (the
source performs no parameter validation). -/
def init (l k n : Nat) : Option Cache :=
  if l = 0 ∨ n = 0 then none
  else
    let masks := calc_masks l n
    some
      { sets := List.replicate n (List.replicate k none)
        lru_queue := List.replicate n []
        dirs := List.replicate n (List.replicate k (List.replicate l false))
        tag_mask := masks.1
        set_mask := masks.2.1
        offset_mask := masks.2.2
        set_shift := ilog2 l
        tag_shift := ilog2 n + ilog2 l
        hits := 0
        misses := 0
        dr_accesses := 0
        dw_accesses := 0 }

/-- `offset = (address & self.offset_mask)` in `read`/`write`. -/
def offsetOf (c : Cache) (address : Nat) : Nat := address &&& c.offset_mask

/-- `set_num = (address & self.set_mask) >> self.set_shift`. -/
def setNumOf (c : Cache) (address : Nat) : Nat :=
  (address &&& c.set_mask) >>> c.set_shift

/-- `tag = (address & self.tag_mask) >> self.tag_shift`. -/
def tagOf (c : Cache) (address : Nat) : Nat :=
  (address &&& c.tag_mask) >>> c.tag_shift

/-- Python `list.index(x)` restricted to its index: the position of the first
element satisfying `p`, `none` when no element does (`ValueError`). -/
def firstIdx (p : α → Bool) : List α → Option Nat
  | [] => none
  | x :: xs => if p x then some 0 else (firstIdx p xs).map (· + 1)

/-- `deque.remove(t)`: drop the first occurrence of `t`, `none` when `t` is
absent (`ValueError`). -/
def removeFirst : List Nat → Nat → Option (List Nat)
  | [], _ => none
  | x :: xs, t => if x = t then some xs else (removeFirst xs t).map (x :: ·)

/-- `self.dirs[set_num][tag_index][offset] = True`. -/
def setDir (dirs : List (List (List Bool))) (set_num tag_index offset : Nat) :
    List (List (List Bool)) :=
  dirs.set set_num ((dirs.getD set_num []).set tag_index
    (((dirs.getD set_num []).getD tag_index []).set offset true))

/-- The shared tail (`finally` block) of `Cache.tag_miss`: install `tag` in
slot `i` of set `set_num`, mark `offset` resident there, and append `tag` to
the set's LRU queue, whose remaining content is `q` (the original queue when
no eviction happened, the popped queue after an eviction). Note the evicted
line's directory is NOT cleared. -/
def tm_install (c : Cache) (tag set_num offset i : Nat) (q : List Nat) : Cache :=
  { c with
    sets := c.sets.set set_num ((c.sets.getD set_num []).set i (some tag))
    dirs := setDir c.dirs set_num i offset
    lru_queue := c.lru_queue.set set_num (q ++ [tag]) }

/-- `Cache.tag_miss`: try to reuse an empty (`None`) slot; otherwise pop the
LRU queue head, locate its slot, and reuse that. `none` models the
uncaught exceptions of the `except` path (popleft from an empty deque /
`index` of a tag absent from the set). -/
def tag_miss (c : Cache) (tag set_num offset : Nat) : Option Cache :=
  let line := c.sets.getD set_num []
  match firstIdx (fun s => decide (s = none)) line with
  | some new_tag_index =>
      some (tm_install c tag set_num offset new_tag_index
        (c.lru_queue.getD set_num []))
  | none =>
      match c.lru_queue.getD set_num [] with
      | [] => none
      | evicted_tag :: rest =>
          match firstIdx (fun s => decide (s = some evicted_tag)) line with
          | none => none
          | some evicted_tag_index =>
              some (tm_install c tag set_num offset evicted_tag_index rest)

/-- `Cache.offset_miss`: mark the offset resident and count one miss. -/
def offset_miss (c : Cache) (set_num tag_index offset : Nat) : Cache :=
  { c with
    dirs := setDir c.dirs set_num tag_index offset
    misses := c.misses + 1 }

/-- `Cache.lru_reshuffle` on one set's queue: `try remove / except print /
finally append`. The first component is the list of lines printed (the
recovery diagnostic when the tag was absent), the second the new queue. -/
def lru_reshuffle (q : List Nat) (tag : Nat) : List String × List Nat :=
  match removeFirst q tag with
  | some q2 => ([], q2 ++ [tag])
  | none => (["Unexpected: Tag was not in lru queue"], q ++ [tag])

/-- `Cache.read(address, burst_count)`. -/
def read (c0 : Cache) (address burst_count : Nat) : Option Cache :=
  let c := { c0 with dr_accesses := c0.dr_accesses + 1 + burst_count }
  let offset := offsetOf c address
  let set_num := setNumOf c address
  let tag := tagOf c address
  if some tag ∈ c.sets.getD set_num [] then
    match firstIdx (fun s => decide (s = some tag)) (c.sets.getD set_num []) with
    | none => none
    | some tag_index =>
        if ((c.dirs.getD set_num []).getD tag_index []).getD offset false then
          some { c with
            lru_queue := c.lru_queue.set set_num
              (lru_reshuffle (c.lru_queue.getD set_num []) tag).2
            hits := c.hits + 1 + burst_count }
        else
          let c2 := offset_miss c set_num tag_index offset
          some { c2 with
            hits := c2.hits + burst_count
            misses := c2.misses + 1 }
  else
    tag_miss c tag set_num offset

/-- `Cache.write(address, burst_count)`. -/
def write (c0 : Cache) (address burst_count : Nat) : Option Cache :=
  let c := { c0 with dw_accesses := c0.dw_accesses + 1 + burst_count }
  let offset := offsetOf c address
  let set_num := setNumOf c address
  let tag := tagOf c address
  if some tag ∈ c.sets.getD set_num [] then
    match firstIdx (fun s => decide (s = some tag)) (c.sets.getD set_num []) with
    | none => none
    | some tag_index =>
        some { c with
          dirs := setDir c.dirs set_num tag_index offset
          lru_queue := c.lru_queue.set set_num
            (lru_reshuffle (c.lru_queue.getD set_num []) tag).2
          hits := c.hits + 1 + burst_count }
  else
    (tag_miss c tag set_num offset).map fun c2 =>
      { c2 with hits := c2.hits + burst_count, misses := c2.misses + 1 }

/-- The hit-rate expression of `Cache.print_results`:
`self.hits / (self.dr_accesses + self.dw_accesses) * 100`. The division is
exact rational here; Python's `ZeroDivisionError` (total accesses = 0) is
modelled as `none`. -/
def hit_rate (c : Cache) : Option Rat :=
  if c.dr_accesses + c.dw_accesses = 0 then none
  else some ((c.hits : Rat) / ((c.dr_accesses + c.dw_accesses : Nat) : Rat) * 100)

end Cache

/-- The mask/shift constants of `analyse` (written with exactly the binary
digits of the source's string literals). -/
def burst_mask : Nat := 0b00011000000000000000000000000000

def burst_shift : Nat := 27

def access_mask : Nat := 0b11100000000000000000000000000000

def access_shift : Nat := 29

def address_mask : Nat := 0b00000000011111111111111111111111

/-- `address = mem & address_mask` in `analyse`. -/
def decodeAddress (mem : Nat) : Nat := mem &&& address_mask

/-- `burst_count = (mem & burst_mask) >> burst_shift` in `analyse`. -/
def decodeBurstCount (mem : Nat) : Nat := (mem &&& burst_mask) >>> burst_shift

/-- `(mem & access_mask) >> access_shift` in `analyse`: the access-type code. -/
def decodeAccessType (mem : Nat) : Nat := (mem &&& access_mask) >>> access_shift

/-- One dispatched engine operation (an `AccessRecord` already routed to one
engine by `analyse`). -/
inductive Op where
  | read (address burst_count : Nat)
  | write (address burst_count : Nat)

/-- Apply one operation to an engine state. -/
def applyOp (c : Cache) : Op → Option Cache
  | .read a b => c.read a b
  | .write a b => c.write a b

/-- Run a sequence of operations; any uncaught Python exception aborts. -/
def runOps : Cache → List Op → Option Cache
  | c, [] => some c
  | c, op :: ops => (applyOp c op).bind (fun c2 => runOps c2 ops)

/-- Engine states reachable from some freshly constructed cache by some
sequence of reads and writes. -/
def Reachable (c : Cache) : Prop :=
  ∃ l k n : Nat, ∃ ops : List Op,
    (Cache.init l k n).bind (fun c0 => runOps c0 ops) = some c

/-- Per-set consistency between one set's lines and its LRU queue: the queue
is duplicate-free, its tags are exactly the tags of the non-empty lines, and
distinct non-empty slots hold distinct tags (the last conjunct is the
strengthening needed to push the first two through eviction). -/
def SetOk (line : List (Option Nat)) (q : List Nat) : Prop :=
  q.Nodup ∧ (∀ t : Nat, t ∈ q ↔ some t ∈ line) ∧
    (∀ i j : Nat, i < line.length → j < line.length →
      line.getD i none ≠ none → line.getD i none = line.getD j none → i = j)

/-- Whole-engine invariant: sets and queues are in step (same count, and
`SetOk` holds for every set index). -/
def CacheInv (c : Cache) : Prop :=
  c.lru_queue.length = c.sets.length ∧
    ∀ i : Nat, SetOk (c.sets.getD i []) (c.lru_queue.getD i [])

/-- Concrete freshly constructed `Cache 2 1 2` state (witness input). -/
def cw4 : Cache :=
  { sets := [[none], [none]]
    lru_queue := [[], []]
    dirs := [[[false, false]], [[false, false]]]
    tag_mask := 134217724
    set_mask := 2
    offset_mask := 1
    set_shift := 1
    tag_shift := 2
    hits := 0
    misses := 0
    dr_accesses := 0
    dw_accesses := 0 }

/-- Concrete freshly constructed `Cache 2 1 1` state (witness input). -/
def cw7 : Cache :=
  { sets := [[none]]
    lru_queue := [[]]
    dirs := [[[false, false]]]
    tag_mask := 134217726
    set_mask := 0
    offset_mask := 1
    set_shift := 1
    tag_shift := 1
    hits := 0
    misses := 0
    dr_accesses := 0
    dw_accesses := 0 }

/-- `cw7` after `write 0 0` (witness output state). -/
def cw7p : Cache :=
  { sets := [[some 0]]
    lru_queue := [[0]]
    dirs := [[[true, false]]]
    tag_mask := 134217726
    set_mask := 0
    offset_mask := 1
    set_shift := 1
    tag_shift := 1
    hits := 0
    misses := 1
    dr_accesses := 0
    dw_accesses := 1 }

/-- Concrete state with tag 0 resident in set 0 but offset 0 not yet
resident (witness input for the offset-miss frame claim). -/
def cw10 : Cache :=
  { sets := [[some 0]]
    lru_queue := [[0]]
    dirs := [[[false, false]]]
    tag_mask := 134217726
    set_mask := 0
    offset_mask := 1
    set_shift := 1
    tag_shift := 1
    hits := 0
    misses := 0
    dr_accesses := 0
    dw_accesses := 0 }

/-! ## General list lemmas used throughout -/

theorem getD_set_self {α : Type _} (l : List α) (i : Nat) (x d : α)
    (h : i < l.length) : (l.set i x).getD i d = x := by
  induction l generalizing i with
  | nil => simp at h
  | cons a as ih =>
    cases i with
    | zero => simp
    | succ n => simpa using ih n (by simpa using h)

theorem getD_set_ne {α : Type _} (l : List α) {i j : Nat} (x d : α)
    (h : i ≠ j) : (l.set i x).getD j d = l.getD j d := by
  induction l generalizing i j with
  | nil => simp
  | cons a as ih =>
    cases i with
    | zero =>
      cases j with
      | zero => exact absurd rfl h
      | succ m => simp
    | succ n =>
      cases j with
      | zero => simp
      | succ m => simpa using ih (fun hnm => h (by simp [hnm]))

theorem getD_mem {α : Type _} (l : List α) (i : Nat) (d : α)
    (h : i < l.length) : l.getD i d ∈ l := by
  induction l generalizing i with
  | nil => simp at h
  | cons a as ih =>
    cases i with
    | zero => simp
    | succ n => exact List.mem_cons_of_mem a (ih n (by simpa using h))

theorem mem_getD {α : Type _} {l : List α} {y : α} (d : α) (h : y ∈ l) :
    ∃ i : Nat, i < l.length ∧ l.getD i d = y := by
  induction l with
  | nil => simp at h
  | cons a as ih =>
    rcases List.mem_cons.mp h with h1 | h2
    · exact ⟨0, by simp, by simp [h1.symm]⟩
    · obtain ⟨i, hi, hg⟩ := ih h2
      exact ⟨i + 1, by simpa using hi, by simpa using hg⟩

theorem getD_replicate {α : Type _} (n i : Nat) (a d : α) :
    (List.replicate n a).getD i d = if i < n then a else d := by
  induction n generalizing i with
  | zero => simp
  | succ m ih =>
    cases i with
    | zero => simp
    | succ j => simpa [List.replicate_succ] using ih j

/-! ## Lemmas about `Cache.firstIdx` (Python `list.index`) -/

theorem firstIdx_some_lt {α : Type _} {p : α → Bool} {l : List α} {i : Nat}
    (h : Cache.firstIdx p l = some i) : i < l.length := by
  induction l generalizing i with
  | nil => simp [Cache.firstIdx] at h
  | cons a as ih =>
    by_cases hp : p a
    · simp [Cache.firstIdx, hp] at h
      simp [← h]
    · simp [Cache.firstIdx, hp] at h
      obtain ⟨j, hj, hji⟩ := h
      have := ih hj
      simp [← hji]
      omega

theorem firstIdx_some_getD {α : Type _} {p : α → Bool} {l : List α} {i : Nat}
    (d : α) (h : Cache.firstIdx p l = some i) : p (l.getD i d) = true := by
  induction l generalizing i with
  | nil => simp [Cache.firstIdx] at h
  | cons a as ih =>
    by_cases hp : p a
    · simp [Cache.firstIdx, hp] at h
      simp [← h, hp]
    · simp [Cache.firstIdx, hp] at h
      obtain ⟨j, hj, hji⟩ := h
      have := ih hj
      simpa [← hji] using this

theorem firstIdx_none_mem {α : Type _} {p : α → Bool} {l : List α}
    (h : Cache.firstIdx p l = none) : ∀ x ∈ l, p x = false := by
  induction l with
  | nil => simp
  | cons a as ih =>
    by_cases hp : p a
    · simp [Cache.firstIdx, hp] at h
    · simp [Cache.firstIdx, hp] at h
      intro x hx
      rcases List.mem_cons.mp hx with h1 | h2
      · simpa [h1] using hp
      · exact ih h x h2

theorem firstIdx_mem_some {α : Type _} {p : α → Bool} {l : List α} {x : α}
    (hx : x ∈ l) (hp : p x = true) : ∃ i : Nat, Cache.firstIdx p l = some i := by
  cases h : Cache.firstIdx p l with
  | none => exact absurd hp (by simp [firstIdx_none_mem h x hx])
  | some i => exact ⟨i, rfl⟩

theorem firstIdx_set {α : Type _} {p : α → Bool} {l : List α} {i : Nat} {x : α}
    (hall : ∀ y ∈ l, p y = false) (hi : i < l.length) (hp : p x = true) :
    Cache.firstIdx p (l.set i x) = some i := by
  induction l generalizing i with
  | nil => simp at hi
  | cons a as ih =>
    cases i with
    | zero => simp [Cache.firstIdx, hp]
    | succ n =>
      have ha : p a = false := hall a (by simp)
      have : Cache.firstIdx p (as.set n x) = some n :=
        ih (fun y hy => hall y (List.mem_cons_of_mem a hy)) (by simpa using hi)
      simp [Cache.firstIdx, ha, this]

/-! ## Lemmas about `Cache.removeFirst` (deque.remove) -/

theorem removeFirst_eq_none {q : List Nat} {t : Nat} :
    Cache.removeFirst q t = none ↔ t ∉ q := by
  induction q with
  | nil => simp [Cache.removeFirst]
  | cons x xs ih =>
    by_cases hx : x = t
    · simp [Cache.removeFirst, hx]
    · simp [Cache.removeFirst, hx, ih, Ne.symm hx]

theorem removeFirst_of_mem {q : List Nat} {t : Nat} (h : t ∈ q) :
    Cache.removeFirst q t = some (q.erase t) := by
  induction q with
  | nil => simp at h
  | cons x xs ih =>
    by_cases hx : x = t
    · simp [Cache.removeFirst, hx, List.erase_cons_head]
    · have ht : t ∈ xs := by
        rcases List.mem_cons.mp h with h1 | h2
        · exact absurd h1.symm hx
        · exact h2
      have hb : ¬(x == t) = true := by simpa using hx
      simp [Cache.removeFirst, hx, ih ht, List.erase_cons_tail hb]

/-! ## `Cache.ilog2` agrees with `Nat.log2` -/

theorem ilog2_go_eq_log2 (fuel m : Nat) (h : m ≤ fuel) :
    Cache.ilog2.go fuel m = Nat.log2 m := by
  induction fuel generalizing m with
  | zero =>
    have : m = 0 := Nat.le_zero.mp h
    simp [Cache.ilog2.go, this, Nat.log2]
  | succ f ih =>
    by_cases h2 : 2 ≤ m
    · have hm : m / 2 ≤ f := by
        have := Nat.div_lt_self (by omega : 0 < m) (by omega : 1 < 2)
        omega
      rw [Cache.ilog2.go, if_pos h2, ih _ hm]
      conv_rhs => rw [Nat.log2]
      rw [if_pos h2]
    · rw [Cache.ilog2.go, if_neg h2, Nat.log2, if_neg h2]

/-- The fuel-based floor log2 used in the embedding is `Nat.log2`. -/
theorem ilog2_eq_log2 (n : Nat) : Cache.ilog2 n = Nat.log2 n :=
  ilog2_go_eq_log2 n n (Nat.le_refl n)

/-! ## Claim C8: touch / lru_reshuffle behaviour -/

/-- C8: `touch(tag)` (`Cache.lru_reshuffle`) moves a present tag to the LRU
tail by removing its first occurrence and appending it; when the tag is
absent the condition is signalled (the diagnostic line is printed, first
component nonempty) but recovery still appends the tag at the tail as
most-recently-used, with no other effect — in particular the function acts
on one set's queue alone and cannot modify any counter. -/
theorem c8_touch_moves_to_tail_and_recovers (q : List Nat) (tag : Nat) :
    (Cache.lru_reshuffle q tag).2 = q.erase tag ++ [tag] ∧
      ((Cache.lru_reshuffle q tag).1 = [] ↔ tag ∈ q) := by
  by_cases h : tag ∈ q
  · rw [Cache.lru_reshuffle, removeFirst_of_mem h]
    exact ⟨rfl, by simpa using h⟩
  · rw [Cache.lru_reshuffle, removeFirst_eq_none.mpr h]
    refine ⟨by rw [List.erase_of_not_mem h], ?_⟩
    simp [h]

/-! ## Claim C1: read on a tag miss (code bug: counters not updated) -/

/-- C1 (code bug evidence): on a freshly constructed `Cache(2, 1, 2)`, a
`read` with burst count 1 whose tag is absent from the set leaves `misses`
and `hits` at 0 and only advances `dr_accesses` by `1 + 1` — the claimed
`misses += 1` / `hits += burstCount` never happens on the read path (compare
`Cache.write`, which performs both updates after `tag_miss`). -/
theorem c1_read_tag_miss_updates_no_hit_miss_counters :
    ((Cache.init 2 1 2).bind (fun c => c.read 0 1)).map
      (fun c => (c.misses, c.hits, c.dr_accesses)) = some (0, 0, 2) := by rfl

/-! ## Claim C2: eviction does not clear the victim's directory (code bug) -/

/-- C2 (code bug evidence): on `Cache(2, 1, 1)`, reading address 1 installs
tag 0 with directory `[false, true]`; reading address 2 then evicts tag 0
(the LRU head), installs tag 1 in its slot and appends it to the LRU tail,
but the surviving directory is `[true, true]`: the stale residency bit of
the evicted tag at offset 1 is kept, where the claim demands an all-false
directory with only offset 0 set (`[true, false]`). -/
theorem c2_eviction_keeps_stale_directory :
    (((Cache.init 2 1 1).bind (fun c => c.read 1 0)).bind
        (fun c => c.read 2 0)).map (fun c => (c.sets, c.lru_queue, c.dirs)) =
      some ([[some 1]], [[1]], [[[true, true]]]) := by rfl

/-! ## Claim C3: read on an offset miss double-counts misses (code bug) -/

/-- C3 (code bug evidence): on `Cache(2, 1, 2)`, `write 0 0` allocates tag 0
(misses = 1); the following `read 1 0` is an offset miss (tag 0 present,
offset 1 not resident) and raises `misses` to 3: `Cache.offset_miss` adds 1
and the offset-miss branch of `Cache.read` adds 1 again, so `misses` grows
by 2 where the claim demands exactly 1 (which would give 2). -/
theorem c3_offset_miss_counts_two_misses :
    (((Cache.init 2 1 2).bind (fun c => c.write 0 0)).bind
        (fun c => c.read 1 0)).map (fun c => c.misses) = some 3 := by rfl

/-! ## Claim C5: the trace decoder's address mask (code bug) -/

/-- C5 (code bug evidence): `analyse`'s `address_mask` literal has 23 one
bits, not 27, so the record address is `bits[22:0]`: the record with bit 23
set (inside the claimed `bits[26:0]` address field, access code 4) decodes
to the same address as the record without it, and `address_mask` is
`2^23 - 1`. The burst and access-type extractions do match the claim. -/
theorem c5_address_mask_is_23_bits :
    decodeAddress ((4 <<< 29) ||| (1 <<< 23)) = decodeAddress (4 <<< 29) ∧
      decodeAddress (1 <<< 23) = 0 ∧
      address_mask = 2 ^ 23 - 1 ∧
      decodeBurstCount ((4 <<< 29) ||| (3 <<< 27)) = 3 ∧
      decodeAccessType ((4 <<< 29) ||| (3 <<< 27)) = 4 := by
  refine ⟨by rfl, by rfl, by rfl, by rfl, by rfl⟩

/-! ## Claim C6: reporting with zero accesses -/

/-- C6 counterexample: on a freshly constructed engine (total accesses = 0)
the hit-rate expression of `print_results` divides by zero
(`Cache.hit_rate` returns `none`, the model of `ZeroDivisionError`), so
reporting an engine that has processed no accesses DOES fail, contrary to
the claim's N/A behaviour. -/
theorem c6_fresh_cache_hit_rate_fails :
    (Cache.init 2 1 2).map Cache.hit_rate = some none := by rfl

/-- C6 amended: the hit-rate computation fails (raises `ZeroDivisionError`,
modelled by `none`) exactly when `totalAccesses = readAccesses +
writeAccesses` is 0; there is no N/A reporting path. For any nonzero total
it yields `hits/totalAccesses * 100` exactly. -/
theorem c6_hit_rate_fails_iff_zero_total (c : Cache) :
    (c.hit_rate = none ↔ c.dr_accesses + c.dw_accesses = 0) ∧
      (c.dr_accesses + c.dw_accesses ≠ 0 →
        c.hit_rate = some ((c.hits : Rat) /
          ((c.dr_accesses + c.dw_accesses : Nat) : Rat) * 100)) := by
  unfold Cache.hit_rate
  by_cases h : c.dr_accesses + c.dw_accesses = 0 <;> simp [h]

/-- Witness for the amended C6 theorem at a concrete engine state (one
processed write, so the total is 1 and the hit rate is defined). -/
theorem c6_hit_rate_witness :
    cw7p.dr_accesses + cw7p.dw_accesses ≠ 0 ∧
      cw7p.hit_rate = some ((cw7p.hits : Rat) /
        ((cw7p.dr_accesses + cw7p.dw_accesses : Nat) : Rat) * 100) :=
  ⟨by decide, (c6_hit_rate_fails_iff_zero_total cw7p).2 (by decide)⟩

/-! ## Claim C9: construction performs no validation (corrected) -/

/-- C9 counterexample: construction with `l = 3` (not a power of two)
succeeds and silently floors `log2 3` to 1 (offset mask `0b1`), and
construction with `offsetBits + setBits = 40 > 27` also succeeds, with the
tag mask silently collapsed to 0 — no `ConfigurationError` (or any error)
is raised at construction for either offending parameter. -/
theorem c9_invalid_parameters_accepted :
    (Cache.init 3 8 256).map (fun c => c.offset_mask) = some 1 ∧
      (Cache.init (2 ^ 20) 1 (2 ^ 20)).map (fun c => c.tag_mask) = some 0 := by
  constructor
  · rfl
  · rfl

/-- C9 amended: construction never validates its parameters: for every
`l ≠ 0` and `n ≠ 0` (the only failure is `math.log2(0)`), `Cache.init`
succeeds, whatever `l`, `k`, `n` are — non-powers of two and overlong
`offsetBits + setBits` included. -/
theorem c9_construction_never_validates (l k n : Nat) (hl : l ≠ 0)
    (hn : n ≠ 0) : (Cache.init l k n).isSome = true := by
  simp [Cache.init, hl, hn]

/-- Witness for the amended C9 theorem: `l = 3, k = 7, n = 12` (no power of
two anywhere) is accepted. -/
theorem c9_construction_witness : (Cache.init 3 7 12).isSome = true :=
  c9_construction_never_validates 3 7 12 (by decide) (by decide)

/-! ## Claim C4: the LRU order matches the non-empty lines (invariant) -/

theorem reshuffle_snd (q : List Nat) (tag : Nat) :
    (Cache.lru_reshuffle q tag).2 = q.erase tag ++ [tag] := by
  by_cases h : tag ∈ q
  · rw [Cache.lru_reshuffle, removeFirst_of_mem h]
  · rw [Cache.lru_reshuffle, removeFirst_eq_none.mpr h,
      List.erase_of_not_mem h]

theorem setOk_nil : SetOk [] [] :=
  ⟨List.nodup_nil, by simp, by simp⟩

theorem lt_of_getD_length_pos {α : Type _} {l : List (List α)} {i : Nat}
    (h : 0 < (l.getD i []).length) : i < l.length := by
  by_contra hh
  push_neg at hh
  rw [List.getD_eq_default _ _ hh] at h
  simp at h

theorem setOk_install_empty {line : List (Option Nat)} {q : List Nat}
    {tag i : Nat} (hok : SetOk line q) (habs : some tag ∉ line)
    (hi : i < line.length) (hnone : line.getD i none = none) :
    SetOk (line.set i (some tag)) (q ++ [tag]) := by
  obtain ⟨hnd, hmem, hdist⟩ := hok
  have htq : tag ∉ q := fun h => habs ((hmem tag).mp h)
  refine ⟨?_, ?_, ?_⟩
  · rw [List.nodup_append]
    refine ⟨hnd, List.nodup_singleton tag, ?_⟩
    intro x hx hx1
    rw [List.mem_singleton] at hx1
    exact htq (hx1 ▸ hx)
  · intro t
    constructor
    · intro ht
      rcases List.mem_append.mp ht with h1 | h1
      · obtain ⟨j, hj, hgj⟩ := mem_getD none ((hmem t).mp h1)
        have hij : i ≠ j := by
          intro hij
          rw [← hij, hnone] at hgj
          exact Option.noConfusion hgj
        have hset : (line.set i (some tag)).getD j none = some t := by
          rw [getD_set_ne line (some tag) none hij, hgj]
        exact hset ▸ getD_mem _ j none (by simpa using hj)
      · rw [List.mem_singleton] at h1
        have hset : (line.set i (some tag)).getD i none = some tag :=
          getD_set_self line i (some tag) none hi
        rw [h1]
        have hin := getD_mem (line.set i (some tag)) i none (by simpa using hi)
        rwa [hset] at hin
    · intro ht
      obtain ⟨j, hj, hgj⟩ := mem_getD none ht
      rw [List.length_set] at hj
      by_cases hji : j = i
      · subst hji
        rw [getD_set_self line j (some tag) none hj] at hgj
        rw [Option.some.injEq] at hgj
        subst hgj
        exact List.mem_append.mpr (Or.inr (List.mem_singleton.mpr rfl))
      · rw [getD_set_ne line (some tag) none (fun hh => hji hh.symm)] at hgj
        exact List.mem_append.mpr (Or.inl ((hmem t).mpr (hgj ▸ getD_mem _ j none hj)))
  · intro i1 j1 hi1 hj1 hne heq
    rw [List.length_set] at hi1 hj1
    by_cases e1 : i1 = i <;> by_cases e2 : j1 = i
    · exact e1.trans e2.symm
    · rw [e1, getD_set_self line i (some tag) none hi,
        getD_set_ne line (some tag) none (fun hh => e2 hh.symm)] at heq
      exact absurd (heq ▸ getD_mem line j1 none hj1) habs
    · rw [e2, getD_set_self line i (some tag) none hi,
        getD_set_ne line (some tag) none (fun hh => e1 hh.symm)] at heq
      exact absurd (heq ▸ getD_mem line i1 none hi1) habs
    · rw [getD_set_ne line (some tag) none (fun hh => e1 hh.symm),
        getD_set_ne line (some tag) none (fun hh => e2 hh.symm)] at heq
      rw [getD_set_ne line (some tag) none (fun hh => e1 hh.symm)] at hne
      exact hdist i1 j1 hi1 hj1 hne heq

theorem setOk_install_evict {line : List (Option Nat)} {e tag i : Nat}
    {rest : List Nat} (hok : SetOk line (e :: rest)) (habs : some tag ∉ line)
    (hi : i < line.length) (he : line.getD i none = some e) :
    SetOk (line.set i (some tag)) (rest ++ [tag]) := by
  obtain ⟨hnd, hmem, hdist⟩ := hok
  rw [List.nodup_cons] at hnd
  obtain ⟨her, hndr⟩ := hnd
  have htq : tag ∉ rest := fun h => habs ((hmem tag).mp (List.mem_cons_of_mem e h))
  refine ⟨?_, ?_, ?_⟩
  · rw [List.nodup_append]
    refine ⟨hndr, List.nodup_singleton tag, ?_⟩
    intro x hx hx1
    rw [List.mem_singleton] at hx1
    exact htq (hx1 ▸ hx)
  · intro t
    constructor
    · intro ht
      rcases List.mem_append.mp ht with h1 | h1
      · obtain ⟨j, hj, hgj⟩ := mem_getD none ((hmem t).mp (List.mem_cons_of_mem e h1))
        have hij : i ≠ j := by
          intro hij
          rw [← hij, he, Option.some.injEq] at hgj
          exact her (hgj ▸ h1)
        have hset : (line.set i (some tag)).getD j none = some t := by
          rw [getD_set_ne line (some tag) none hij, hgj]
        exact hset ▸ getD_mem _ j none (by simpa using hj)
      · rw [List.mem_singleton] at h1
        have hset : (line.set i (some tag)).getD i none = some tag :=
          getD_set_self line i (some tag) none hi
        rw [h1]
        have hin := getD_mem (line.set i (some tag)) i none (by simpa using hi)
        rwa [hset] at hin
    · intro ht
      obtain ⟨j, hj, hgj⟩ := mem_getD none ht
      rw [List.length_set] at hj
      by_cases hji : j = i
      · subst hji
        rw [getD_set_self line j (some tag) none hj, Option.some.injEq] at hgj
        subst hgj
        exact List.mem_append.mpr (Or.inr (List.mem_singleton.mpr rfl))
      · rw [getD_set_ne line (some tag) none (fun hh => hji hh.symm)] at hgj
        have htl : t ∈ e :: rest := (hmem t).mpr (hgj ▸ getD_mem _ j none hj)
        rcases List.mem_cons.mp htl with h1 | h1
        · subst h1
          exact absurd (hdist j i hj hi (by rw [hgj]; exact Option.noConfusion)
            (hgj.trans he.symm)) hji
        · exact List.mem_append.mpr (Or.inl h1)
  · intro i1 j1 hi1 hj1 hne heq
    rw [List.length_set] at hi1 hj1
    by_cases e1 : i1 = i <;> by_cases e2 : j1 = i
    · exact e1.trans e2.symm
    · rw [e1, getD_set_self line i (some tag) none hi,
        getD_set_ne line (some tag) none (fun hh => e2 hh.symm)] at heq
      exact absurd (heq ▸ getD_mem line j1 none hj1) habs
    · rw [e2, getD_set_self line i (some tag) none hi,
        getD_set_ne line (some tag) none (fun hh => e1 hh.symm)] at heq
      exact absurd (heq ▸ getD_mem line i1 none hi1) habs
    · rw [getD_set_ne line (some tag) none (fun hh => e1 hh.symm),
        getD_set_ne line (some tag) none (fun hh => e2 hh.symm)] at heq
      rw [getD_set_ne line (some tag) none (fun hh => e1 hh.symm)] at hne
      exact hdist i1 j1 hi1 hj1 hne heq

theorem setOk_touch {line : List (Option Nat)} {q : List Nat} {tag : Nat}
    (hok : SetOk line q) (hmem : some tag ∈ line) :
    SetOk line (Cache.lru_reshuffle q tag).2 := by
  obtain ⟨hnd, hiff, hdist⟩ := hok
  have htq : tag ∈ q := (hiff tag).mpr hmem
  rw [reshuffle_snd]
  refine ⟨?_, ?_, hdist⟩
  · rw [List.nodup_append]
    refine ⟨hnd.erase tag, List.nodup_singleton tag, ?_⟩
    intro x hx hx1
    rw [List.mem_singleton] at hx1
    exact ((hnd.mem_erase_iff.mp hx).1) hx1
  · intro t
    rw [List.mem_append, List.mem_singleton, hnd.mem_erase_iff]
    constructor
    · rintro (⟨hne, ht⟩ | rfl)
      · exact (hiff t).mp ht
      · exact hmem
    · intro ht
      by_cases hte : t = tag
      · exact Or.inr hte
      · exact Or.inl ⟨hte, (hiff t).mpr ht⟩

theorem cacheInv_of_eq {c c' : Cache} (h : CacheInv c)
    (hs : c'.sets = c.sets) (hq : c'.lru_queue = c.lru_queue) : CacheInv c' := by
  refine ⟨?_, ?_⟩
  · rw [hs, hq]; exact h.1
  · intro i; rw [hs, hq]; exact h.2 i

theorem cacheInv_set_update {c c' : Cache} {set_num : Nat}
    {line2 : List (Option Nat)} {q2 : List Nat}
    (h : CacheInv c) (hsn : set_num < c.sets.length) (hok2 : SetOk line2 q2)
    (hs : c'.sets = c.sets.set set_num line2)
    (hq : c'.lru_queue = c.lru_queue.set set_num q2) : CacheInv c' := by
  obtain ⟨hlen, hall⟩ := h
  refine ⟨?_, ?_⟩
  · rw [hs, hq, List.length_set, List.length_set, hlen]
  · intro i
    rw [hs, hq]
    by_cases hi : i = set_num
    · subst hi
      rw [getD_set_self _ _ _ _ hsn, getD_set_self _ _ _ _ (hlen ▸ hsn)]
      exact hok2
    · rw [getD_set_ne _ _ _ (fun hh => hi hh.symm),
        getD_set_ne _ _ _ (fun hh => hi hh.symm)]
      exact hall i

theorem cacheInv_queue_update {c c' : Cache} {set_num : Nat} {q2 : List Nat}
    (h : CacheInv c) (hsn : set_num < c.sets.length)
    (hok2 : SetOk (c.sets.getD set_num []) q2)
    (hs : c'.sets = c.sets)
    (hq : c'.lru_queue = c.lru_queue.set set_num q2) : CacheInv c' := by
  obtain ⟨hlen, hall⟩ := h
  refine ⟨?_, ?_⟩
  · rw [hs, hq, List.length_set, hlen]
  · intro i
    rw [hs, hq]
    by_cases hi : i = set_num
    · subst hi
      rw [getD_set_self _ _ _ _ (hlen ▸ hsn)]
      exact hok2
    · rw [getD_set_ne _ _ _ (fun hh => hi hh.symm)]
      exact hall i

theorem tag_miss_cases {c c' : Cache} {tag set_num offset : Nat}
    (ht : Cache.tag_miss c tag set_num offset = some c') :
    (∃ i, Cache.firstIdx (fun s => decide (s = none))
        (c.sets.getD set_num []) = some i ∧
      c' = Cache.tm_install c tag set_num offset i
        (c.lru_queue.getD set_num [])) ∨
    (∃ e rest i, c.lru_queue.getD set_num [] = e :: rest ∧
      Cache.firstIdx (fun s => decide (s = some e))
        (c.sets.getD set_num []) = some i ∧
      c' = Cache.tm_install c tag set_num offset i rest) := by
  simp only [Cache.tag_miss] at ht
  cases hfi : Cache.firstIdx (fun s => decide (s = none))
      (c.sets.getD set_num []) with
  | some i =>
    rw [hfi] at ht
    simp only [Option.some.injEq] at ht
    exact Or.inl ⟨i, rfl, ht.symm⟩
  | none =>
    rw [hfi] at ht
    cases hq : c.lru_queue.getD set_num [] with
    | nil => rw [hq] at ht; simp at ht
    | cons e rest =>
      rw [hq] at ht
      simp only [] at ht
      cases hfe : Cache.firstIdx (fun s => decide (s = some e))
          (c.sets.getD set_num []) with
      | none => rw [hfe] at ht; simp at ht
      | some i =>
        rw [hfe] at ht
        simp only [Option.some.injEq] at ht
        exact Or.inr ⟨e, rest, i, rfl, hfe, ht.symm⟩

theorem tagMiss_cacheInv {c c' : Cache} {tag set_num offset : Nat}
    (h : CacheInv c) (habs : some tag ∉ c.sets.getD set_num [])
    (ht : Cache.tag_miss c tag set_num offset = some c') : CacheInv c' := by
  rcases tag_miss_cases ht with ⟨i, hfi, rfl⟩ | ⟨e, rest, i, hq, hfe, rfl⟩
  · have hi : i < (c.sets.getD set_num []).length := firstIdx_some_lt hfi
    have hnone : (c.sets.getD set_num []).getD i none = none := by
      have := firstIdx_some_getD none hfi
      simpa using this
    have hsn : set_num < c.sets.length :=
      lt_of_getD_length_pos (Nat.lt_of_le_of_lt (Nat.zero_le i) hi)
    exact cacheInv_set_update h hsn
      (setOk_install_empty (h.2 set_num) habs hi hnone) rfl rfl
  · have hi : i < (c.sets.getD set_num []).length := firstIdx_some_lt hfe
    have he : (c.sets.getD set_num []).getD i none = some e := by
      have := firstIdx_some_getD none hfe
      simpa using this
    have hsn : set_num < c.sets.length :=
      lt_of_getD_length_pos (Nat.lt_of_le_of_lt (Nat.zero_le i) hi)
    have hok := h.2 set_num
    rw [hq] at hok
    exact cacheInv_set_update h hsn
      (setOk_install_evict hok habs hi he) rfl rfl

theorem read_cacheInv {c0 c' : Cache} {a b : Nat} (h : CacheInv c0)
    (hr : Cache.read c0 a b = some c') : CacheInv c' := by
  simp only [Cache.read, Cache.tagOf, Cache.setNumOf, Cache.offsetOf] at hr
  split at hr
  · rename_i hm
    split at hr
    · exact absurd hr (by simp)
    · rename_i ti hti
      split at hr
      · rw [Option.some.injEq] at hr
        subst hr
        have hsn := lt_of_getD_length_pos
          (List.length_pos.mpr (List.ne_nil_of_mem hm))
        exact cacheInv_queue_update h hsn (setOk_touch (h.2 _) hm) rfl rfl
      · rw [Option.some.injEq] at hr
        subst hr
        exact cacheInv_of_eq h rfl rfl
  · rename_i hm
    refine tagMiss_cacheInv ?_ ?_ hr
    · exact h
    · exact hm

theorem write_cacheInv {c0 c' : Cache} {a b : Nat} (h : CacheInv c0)
    (hr : Cache.write c0 a b = some c') : CacheInv c' := by
  simp only [Cache.write, Cache.tagOf, Cache.setNumOf, Cache.offsetOf] at hr
  split at hr
  · rename_i hm
    split at hr
    · exact absurd hr (by simp)
    · rename_i ti hti
      rw [Option.some.injEq] at hr
      subst hr
      have hsn := lt_of_getD_length_pos
        (List.length_pos.mpr (List.ne_nil_of_mem hm))
      exact cacheInv_queue_update h hsn (setOk_touch (h.2 _) hm) rfl rfl
  · rename_i hm
    rw [Option.map_eq_some'] at hr
    obtain ⟨c2, hc2, rfl⟩ := hr
    refine cacheInv_of_eq (tagMiss_cacheInv ?_ ?_ hc2) rfl rfl
    · exact h
    · exact hm

theorem applyOp_cacheInv {c c' : Cache} {op : Op} (h : CacheInv c)
    (ha : applyOp c op = some c') : CacheInv c' := by
  cases op with
  | read a b => exact read_cacheInv h ha
  | write a b => exact write_cacheInv h ha

theorem runOps_cacheInv {c c' : Cache} {ops : List Op} (h : CacheInv c)
    (hr : runOps c ops = some c') : CacheInv c' := by
  induction ops generalizing c with
  | nil =>
    rw [runOps, Option.some.injEq] at hr
    exact hr ▸ h
  | cons op ops ih =>
    rw [runOps, Option.bind_eq_some] at hr
    obtain ⟨c2, h2, hrest⟩ := hr
    exact ih (applyOp_cacheInv h h2) hrest

theorem init_cacheInv {l k n : Nat} {c : Cache}
    (h : Cache.init l k n = some c) : CacheInv c := by
  unfold Cache.init at h
  split at h
  · exact absurd h (by simp)
  · rw [Option.some.injEq] at h
    subst h
    refine ⟨by simp, ?_⟩
    intro i
    show SetOk ((List.replicate n (List.replicate k none)).getD i [])
      ((List.replicate n ([] : List Nat)).getD i [])
    rw [getD_replicate, getD_replicate]
    by_cases hi : i < n
    · rw [if_pos hi, if_pos hi]
      refine ⟨List.nodup_nil, ?_, ?_⟩
      · intro t
        simp [List.mem_replicate]
      · intro i1 j1 h1 h2 h3 h4
        rw [getD_replicate] at h3
        simp at h3
    · rw [if_neg hi, if_neg hi]
      exact setOk_nil

/-- C4: in every engine state reachable by any sequence of reads and writes
from any freshly constructed cache, each set's LRU order has no duplicate
tags and its tags are exactly the tags held by the set's non-empty lines. -/
theorem c4_lru_order_matches_lines (c : Cache) (h : Reachable c) :
    ∀ i : Nat, (c.lru_queue.getD i []).Nodup ∧
      ∀ t : Nat, t ∈ c.lru_queue.getD i [] ↔ some t ∈ c.sets.getD i [] := by
  obtain ⟨l, k, n, ops, hrun⟩ := h
  rw [Option.bind_eq_some] at hrun
  obtain ⟨c0, hinit, hops⟩ := hrun
  have hinv := runOps_cacheInv (init_cacheInv hinit) hops
  intro i
  exact ⟨(hinv.2 i).1, (hinv.2 i).2.1⟩

/-- Witness for C4 at the freshly constructed `Cache(2, 1, 2)` state. -/
theorem c4_witness :
    Reachable cw4 ∧
      (∀ i : Nat, (cw4.lru_queue.getD i []).Nodup ∧
        ∀ t : Nat, t ∈ cw4.lru_queue.getD i [] ↔ some t ∈ cw4.sets.getD i []) :=
  have hre : Reachable cw4 := ⟨2, 1, 2, [], by rfl⟩
  ⟨hre, c4_lru_order_matches_lines cw4 hre⟩

/-! ## Branch equations for `Cache.read` (used by C7 and C10) -/

theorem tagOf_dr_bump (c : Cache) (x a : Nat) :
    Cache.tagOf { c with dr_accesses := x } a = Cache.tagOf c a := rfl

theorem setNumOf_dr_bump (c : Cache) (x a : Nat) :
    Cache.setNumOf { c with dr_accesses := x } a = Cache.setNumOf c a := rfl

theorem offsetOf_dr_bump (c : Cache) (x a : Nat) :
    Cache.offsetOf { c with dr_accesses := x } a = Cache.offsetOf c a := rfl

theorem tagOf_dw_bump (c : Cache) (x a : Nat) :
    Cache.tagOf { c with dw_accesses := x } a = Cache.tagOf c a := rfl

theorem setNumOf_dw_bump (c : Cache) (x a : Nat) :
    Cache.setNumOf { c with dw_accesses := x } a = Cache.setNumOf c a := rfl

theorem offsetOf_dw_bump (c : Cache) (x a : Nat) :
    Cache.offsetOf { c with dw_accesses := x } a = Cache.offsetOf c a := rfl

theorem tag_miss_install {c c' : Cache} {tag set_num offset : Nat}
    (ht : Cache.tag_miss c tag set_num offset = some c') :
    ∃ i q2, i < (c.sets.getD set_num []).length ∧
      c' = Cache.tm_install c tag set_num offset i q2 := by
  rcases tag_miss_cases ht with ⟨i, hfi, hc⟩ | ⟨e, rest, i, hq, hfe, hc⟩
  · exact ⟨i, _, firstIdx_some_lt hfi, hc⟩
  · exact ⟨i, rest, firstIdx_some_lt hfe, hc⟩

theorem read_hit {c : Cache} {a b ti : Nat}
    (hfi : Cache.firstIdx (fun s => decide (s = some (Cache.tagOf c a)))
      (c.sets.getD (Cache.setNumOf c a) []) = some ti)
    (hdir : ((c.dirs.getD (Cache.setNumOf c a) []).getD ti []).getD
      (Cache.offsetOf c a) false = true) :
    Cache.read c a b = some { c with
      lru_queue := c.lru_queue.set (Cache.setNumOf c a)
        (Cache.lru_reshuffle (c.lru_queue.getD (Cache.setNumOf c a) [])
          (Cache.tagOf c a)).2
      hits := c.hits + 1 + b
      dr_accesses := c.dr_accesses + 1 + b } := by
  have hmem : some (Cache.tagOf c a) ∈ c.sets.getD (Cache.setNumOf c a) [] := by
    have h1 := firstIdx_some_getD none hfi
    simp only [decide_eq_true_eq] at h1
    exact h1 ▸ getD_mem _ ti none (firstIdx_some_lt hfi)
  simp only [Cache.read, tagOf_dr_bump, setNumOf_dr_bump, offsetOf_dr_bump]
  rw [if_pos hmem, hfi]
  simp only [if_pos hdir]

theorem read_offset_miss {c : Cache} {a b ti : Nat}
    (hfi : Cache.firstIdx (fun s => decide (s = some (Cache.tagOf c a)))
      (c.sets.getD (Cache.setNumOf c a) []) = some ti)
    (hdir : ((c.dirs.getD (Cache.setNumOf c a) []).getD ti []).getD
      (Cache.offsetOf c a) false = false) :
    Cache.read c a b = some { c with
      dirs := Cache.setDir c.dirs (Cache.setNumOf c a) ti (Cache.offsetOf c a)
      hits := c.hits + b
      misses := c.misses + 1 + 1
      dr_accesses := c.dr_accesses + 1 + b } := by
  have hmem : some (Cache.tagOf c a) ∈ c.sets.getD (Cache.setNumOf c a) [] := by
    have h1 := firstIdx_some_getD none hfi
    simp only [decide_eq_true_eq] at h1
    exact h1 ▸ getD_mem _ ti none (firstIdx_some_lt hfi)
  simp only [Cache.read, tagOf_dr_bump, setNumOf_dr_bump, offsetOf_dr_bump]
  rw [if_pos hmem, hfi]
  simp only [hdir, Bool.false_eq_true, if_false, Cache.offset_miss]

/-! ## Claim C7: write-allocate on an absent tag, then read hits -/

/-- C7: a `write` whose tag is absent from its set allocates a line, marks
the addressed offset resident, and changes the counters by exactly
`misses += 1`, `hits += B`, `writeAccesses += 1 + B` (read accesses
untouched); a following `read(addr, 0)` of the same address then takes the
hit branch: `hits += 1`, `misses` unchanged, `readAccesses += 1`. The
dimension hypotheses say the directory array covers the addressed set, its
lines, and the decoded offset, as construction always guarantees. -/
theorem c7_write_allocate_then_read_hits (c c' : Cache) (a B : Nat)
    (habs : some (Cache.tagOf c a) ∉ c.sets.getD (Cache.setNumOf c a) [])
    (hw : Cache.write c a B = some c')
    (hdn : Cache.setNumOf c a < c.dirs.length)
    (hrows : (c.sets.getD (Cache.setNumOf c a) []).length ≤
      (c.dirs.getD (Cache.setNumOf c a) []).length)
    (hoff : ∀ row ∈ c.dirs.getD (Cache.setNumOf c a) [],
      Cache.offsetOf c a < row.length) :
    c'.misses = c.misses + 1 ∧ c'.hits = c.hits + B ∧
      c'.dw_accesses = c.dw_accesses + 1 + B ∧ c'.dr_accesses = c.dr_accesses ∧
      ∃ c'' : Cache, Cache.read c' a 0 = some c'' ∧
        c''.hits = c'.hits + 1 ∧ c''.misses = c'.misses ∧
        c''.dr_accesses = c'.dr_accesses + 1 := by
  simp only [Cache.write, tagOf_dw_bump, setNumOf_dw_bump, offsetOf_dw_bump]
    at hw
  rw [if_neg habs, Option.map_eq_some'] at hw
  obtain ⟨c2, hc2, rfl⟩ := hw
  obtain ⟨i, q2, hi, rfl⟩ := tag_miss_install hc2
  have hsn : Cache.setNumOf c a < c.sets.length :=
    lt_of_getD_length_pos (Nat.lt_of_le_of_lt (Nat.zero_le i) hi)
  refine ⟨rfl, rfl, rfl, rfl, ?_⟩
  have hfi' : Cache.firstIdx
      (fun s => decide (s = some (Cache.tagOf c a)))
      ((c.sets.set (Cache.setNumOf c a)
        ((c.sets.getD (Cache.setNumOf c a) []).set i
          (some (Cache.tagOf c a)))).getD (Cache.setNumOf c a) []) =
      some i := by
    rw [getD_set_self _ _ _ _ hsn]
    refine firstIdx_set ?_ hi (by simp)
    intro y hy
    simp only [decide_eq_false_iff_not]
    intro hcon
    exact habs (hcon ▸ hy)
  have hik : i < (c.dirs.getD (Cache.setNumOf c a) []).length :=
    Nat.lt_of_lt_of_le hi hrows
  have hdir' : (((Cache.setDir c.dirs (Cache.setNumOf c a) i
      (Cache.offsetOf c a)).getD (Cache.setNumOf c a) []).getD i []).getD
      (Cache.offsetOf c a) false = true := by
    unfold Cache.setDir
    rw [getD_set_self _ _ _ _ hdn, getD_set_self _ _ _ _ hik,
      getD_set_self _ _ _ _ (hoff _ (getD_mem _ i [] hik))]
  exact ⟨_, read_hit hfi' hdir', rfl, rfl, rfl⟩

/-- Witness for C7: on the fresh `Cache(2, 1, 1)` state `cw7`,
`write 0 0` produces `cw7p` and the theorem applies. -/
theorem c7_witness :
    (some (Cache.tagOf cw7 0) ∉ cw7.sets.getD (Cache.setNumOf cw7 0) []) ∧
      Cache.write cw7 0 0 = some cw7p ∧
      Cache.setNumOf cw7 0 < cw7.dirs.length ∧
      (cw7.sets.getD (Cache.setNumOf cw7 0) []).length ≤
        (cw7.dirs.getD (Cache.setNumOf cw7 0) []).length ∧
      (∀ row ∈ cw7.dirs.getD (Cache.setNumOf cw7 0) [],
        Cache.offsetOf cw7 0 < row.length) ∧
      (cw7p.misses = cw7.misses + 1 ∧ cw7p.hits = cw7.hits + 0 ∧
        cw7p.dw_accesses = cw7.dw_accesses + 1 + 0 ∧
        cw7p.dr_accesses = cw7.dr_accesses ∧
        ∃ c'' : Cache, Cache.read cw7p 0 0 = some c'' ∧
          c''.hits = cw7p.hits + 1 ∧ c''.misses = cw7p.misses ∧
          c''.dr_accesses = cw7p.dr_accesses + 1) :=
  ⟨by decide, by decide, by decide, by decide, by decide,
    c7_write_allocate_then_read_hits cw7 cw7p 0 0 (by decide) (by decide)
      (by decide) (by decide) (by decide)⟩

/-! ## Claim C10: a read offset miss leaves the LRU order unchanged -/

/-- C10: when a read finds its decoded tag resident (at line `ti`) but the
addressed offset's directory bit false, the read succeeds through the
offset-miss branch and the whole LRU structure is left untouched (the
accessed tag is not moved to the most-recently-used position; the line array
is also unchanged). -/
theorem c10_offset_miss_leaves_lru_unchanged (c : Cache) (a B ti : Nat)
    (hfi : Cache.firstIdx (fun s => decide (s = some (Cache.tagOf c a)))
      (c.sets.getD (Cache.setNumOf c a) []) = some ti)
    (hdir : ((c.dirs.getD (Cache.setNumOf c a) []).getD ti []).getD
      (Cache.offsetOf c a) false = false) :
    ∃ c' : Cache, Cache.read c a B = some c' ∧
      c'.lru_queue = c.lru_queue ∧ c'.sets = c.sets :=
  ⟨_, read_offset_miss hfi hdir, rfl, rfl⟩

/-- Witness for C10 at the concrete state `cw10` (tag 0 resident, offset 0
not resident). -/
theorem c10_witness :
    (Cache.firstIdx (fun s => decide (s = some (Cache.tagOf cw10 0)))
      (cw10.sets.getD (Cache.setNumOf cw10 0) []) = some 0) ∧
      ((cw10.dirs.getD (Cache.setNumOf cw10 0) []).getD 0 []).getD
        (Cache.offsetOf cw10 0) false = false ∧
      ∃ c' : Cache, Cache.read cw10 0 0 = some c' ∧
        c'.lru_queue = cw10.lru_queue ∧ c'.sets = cw10.sets :=
  ⟨by decide, by decide,
    c10_offset_miss_leaves_lru_unchanged cw10 0 0 0 (by decide) (by decide)⟩
